import Mathlib

/-!
Verification development for the GRR data-migration excerpt.

The repository ships the migration test suite
(`grr/server/grr_response_server/data_migration_test.py`) and the OS X
client actions (`client/client_actions/osx/osx.py`).  The migration
engine itself (`data_migration.py` with `ListVfs`, `MigrateClientVfs`
and `BlobsMigrator`) is not part of the excerpt, so those components are
modelled from the specification (and from the behaviour pinned down by
the test suite) rather than translated from source; each such definition
carries a doc comment starting with `Modelled from the spec:`.
`GetInstallDate.Run` is translated directly from `osx.py`.

All data is per client: a `VfsSource` is the legacy VFS data of one
client, so the client identifier is implicit throughout.
-/

/-- Concatenation of the lists produced by `f` over `l` (the shape in
which the closure builder and migrator accumulate output). -/
def flatMapList (f : α → List β) : List α → List β
  | [] => []
  | x :: xs => f x ++ flatMapList f xs

/-- Path-type tag of a hierarchical path identifier: one of the fixed
enumeration OS-filesystem, alternate-filesystem (TSK), registry,
temporary. -/
inductive PathType where
  | os
  | tsk
  | registry
  | temp
deriving DecidableEq

/-- Modelled from the spec: a PathIdentifier is an ordered sequence of
string components plus a path-type tag; two identifiers are equal iff
type and full component sequence match. -/
structure PathIdentifier where
  pathType : PathType
  components : List String
deriving DecidableEq

/-- The identifier obtained by keeping only the first `n` components of
`p` (same path type). -/
def PathIdentifier.takeComponents (p : PathIdentifier) (n : Nat) : PathIdentifier :=
  { pathType := p.pathType, components := p.components.take n }

/-- Modelled from the spec: the ancestors of `(type, [a, b, c])` are the
identifiers for every non-empty proper initial segment of the component
list, i.e. `(type, [a])` and `(type, [a, b])`; the zero-component root
is excluded. -/
def PathIdentifier.ancestors (p : PathIdentifier) : List PathIdentifier :=
  (List.range (p.components.length - 1)).map (fun n => p.takeComponents (n + 1))

/-- Modelled from the spec: the Ancestor-Closure Tree Builder
(`data_migration.ListVfs`).  Input is the set of leaf path identifiers
of one client; output is the union of every input identifier with every
one of its ancestors, deduplicated, never emitting an identifier with
zero components. -/
def listVfs (leaves : List PathIdentifier) : List PathIdentifier :=
  (flatMapList (fun l => l.ancestors ++ [l]) leaves).filter
    (fun p => ¬ p.components.isEmpty) |>.dedup

/-- A destination record: an optional status snapshot and an optional
hash snapshot.  Snapshot values are opaque and modelled as `Nat`. -/
structure PathRecord where
  stat : Option Nat
  hash : Option Nat
deriving DecidableEq

/-- Modelled from the spec: the legacy VFS data of one client — the set
of leaf path identifiers, and per identifier the status history and the
hash history, each an association list from identifier to a sequence of
`(timestamp, snapshot)` pairs.  Timestamps are `Nat`
microseconds-since-epoch. -/
structure VfsSource where
  leaves : List PathIdentifier
  statHistories : List (PathIdentifier × List (Nat × Nat))
  hashHistories : List (PathIdentifier × List (Nat × Nat))

/-- History recorded for `p` in the association list `hs`; a node with
no record has the empty history. -/
def histOf (hs : List (PathIdentifier × List (Nat × Nat))) (p : PathIdentifier) :
    List (Nat × Nat) :=
  ((hs.find? (fun e => e.fst = p)).map Prod.snd).getD []

/-- Status history of `p` in the legacy data. -/
def VfsSource.statHistory (src : VfsSource) (p : PathIdentifier) : List (Nat × Nat) :=
  histOf src.statHistories p

/-- Hash history of `p` in the legacy data. -/
def VfsSource.hashHistory (src : VfsSource) (p : PathIdentifier) : List (Nat × Nat) :=
  histOf src.hashHistories p

/-- Well-formedness of one history table: every recorded history is
ordered by strictly increasing timestamp (spec: an ordered-by-timestamp
sequence of snapshots, one per timestamp). -/
def HistWF (hs : List (PathIdentifier × List (Nat × Nat))) : Prop :=
  ∀ e ∈ hs, e.snd.Pairwise (fun a b => a.fst < b.fst)

/-- Well-formed legacy data: both history tables are well-formed. -/
def VfsSource.WF (src : VfsSource) : Prop :=
  HistWF src.statHistories ∧ HistWF src.hashHistories

instance (hs : List (PathIdentifier × List (Nat × Nat))) : Decidable (HistWF hs) :=
  inferInstanceAs
    (Decidable (∀ e ∈ hs, e.snd.Pairwise (fun a b : Nat × Nat => a.fst < b.fst)))

instance (src : VfsSource) : Decidable src.WF :=
  inferInstanceAs (Decidable (HistWF src.statHistories ∧ HistWF src.hashHistories))

/-- The snapshot recorded at exactly timestamp `t` in a history. -/
def valueAt (hist : List (Nat × Nat)) (t : Nat) : Option Nat :=
  (hist.find? (fun e => e.fst = t)).map Prod.snd

/-- The distinct timestamps appearing in either of two histories. -/
def recordTimes (s h : List (Nat × Nat)) : List Nat :=
  (s.map Prod.fst ++ h.map Prod.fst).dedup

/-- Modelled from the spec: the destination records the VFS Migrator
emits for one identifier — one record per distinct timestamp of either
history carrying the snapshot at that exact timestamp for each kind
(never interpolated across kinds), or a single existence-only record
(key `none`, no timestamp constraint) when the identifier has no history
in either kind. -/
def pathRecords (src : VfsSource) (p : PathIdentifier) : List (Option Nat × PathRecord) :=
  if (src.statHistory p).isEmpty && (src.hashHistory p).isEmpty then
    [(none, { stat := none, hash := none })]
  else
    (recordTimes (src.statHistory p) (src.hashHistory p)).map
      (fun t => (some t, { stat := valueAt (src.statHistory p) t,
                           hash := valueAt (src.hashHistory p) t }))

/-- All keyed destination records of one client: every identifier of the
ancestor closure contributes its records, keyed by
`(identifier, optional timestamp)`. -/
def migrateRecords (src : VfsSource) : List ((PathIdentifier × Option Nat) × PathRecord) :=
  flatMapList (fun p => (pathRecords src p).map (fun e => ((p, e.fst), e.snd)))
    (listVfs src.leaves)

/-- The destination relational store, keyed by
`(PathIdentifier, optional timestamp)` (client fixed). -/
abbrev DestDB := List ((PathIdentifier × Option Nat) × PathRecord)

/-- The empty destination store. -/
def emptyDB : DestDB := []

/-- Per-kind merge of a new record into an old one: each kind present in
the new record replaces the old value of that kind, each absent kind
keeps the old value (the write is keyed by
`(client, PathIdentifier, timestamp, kind)`). -/
def mergeRecord (old new : PathRecord) : PathRecord :=
  { stat := new.stat.orElse (fun _ => old.stat),
    hash := new.hash.orElse (fun _ => old.hash) }

/-- Modelled from the spec: `UpsertPathRecord` — an upsert, never an
append: if the key is present the record is merged per kind, otherwise a
new record is appended. -/
def upsert (db : DestDB) (k : PathIdentifier × Option Nat) (r : PathRecord) : DestDB :=
  if db.any (fun e => e.fst = k) then
    db.map (fun e => if e.fst = k then (k, mergeRecord e.snd r) else e)
  else
    db ++ [(k, r)]

/-- Modelled from the spec: `data_migration.MigrateClientVfs` for one
client — enumerate the leaves, build the ancestor closure, read both
histories per identifier, and write every resulting record to the
destination store through upserts. -/
def migrateClientVfs (src : VfsSource) (db : DestDB) : DestDB :=
  (migrateRecords src).foldl (fun d e => upsert d e.fst e.snd) db

/-- The records stored for identifier `p`, as `(optional timestamp,
record)` pairs. -/
def entriesFor (db : DestDB) (p : PathIdentifier) : List (Option Nat × PathRecord) :=
  (db.filter (fun e => e.fst.fst = p)).map (fun e => (e.fst.snd, e.snd))

/-- The `(timestamp, value)` candidates one attribute kind contributes
to a point-in-time read at `T`: timestamped records at or before `T`
that carry that kind. -/
def fieldCandidates (field : PathRecord → Option Nat)
    (es : List (Option Nat × PathRecord)) (T : Nat) : List (Nat × Nat) :=
  es.filterMap (fun e =>
    match e.fst, field e.snd with
    | some t, some v => if t ≤ T then some (t, v) else none
    | _, _ => none)

/-- Keep the better of a candidate and the best crossing so far (later
timestamp wins). -/
def pickBest (c : Nat × Nat) : Option (Nat × Nat) → Option (Nat × Nat)
  | none => some c
  | some b => if c.fst < b.fst then some b else some c

/-- The candidate with the greatest timestamp, if any (the backward
scan of the point-in-time read). -/
def bestOf : List (Nat × Nat) → Option (Nat × Nat)
  | [] => none
  | c :: cs => pickBest c (bestOf cs)

/-- Modelled from the spec: `REL_DB.ReadPathInfo` — the point-in-time
read at `T`: absent when the identifier has no record at all; otherwise
each attribute kind independently resolves to the most recent snapshot
at or before `T` carrying that kind. -/
def readPathInfo (db : DestDB) (p : PathIdentifier) (T : Nat) : Option PathRecord :=
  if (entriesFor db p).isEmpty then none
  else
    some { stat := (bestOf (fieldCandidates PathRecord.stat (entriesFor db p) T)).map Prod.snd,
           hash := (bestOf (fieldCandidates PathRecord.hash (entriesFor db p) T)).map Prod.snd }

/-- Spec-side definition, following the claim wording only: the snapshot
with the greatest timestamp at or before `T` in a history. -/
def specLatestAtOrBefore (hist : List (Nat × Nat)) (T : Nat) : Option Nat :=
  (bestOf (hist.filter (fun e => e.fst ≤ T))).map Prod.snd

/-- Modelled from the spec: the legacy blob store — content-addressed
`(identity, bytes)` pairs, where the identity is the digest of the
bytes, so equal content always has equal identity.  Bytes are modelled
as lists of `Nat`. -/
structure LegacyBlobStore where
  blobs : List (List Nat × List Nat)

/-- The destination blob store, same content-addressed shape. -/
abbrev DestBlobStore := List (List Nat × List Nat)

/-- Modelled from the spec: `WriteBlobIfAbsent` — writing an identity
already present is a no-op success, otherwise the blob is added. -/
def writeBlobIfAbsent (dest : DestBlobStore) (idc : List Nat × List Nat) : DestBlobStore :=
  if dest.any (fun e => e.fst = idc.fst) then dest else dest ++ [idc]

/-- Read a blob's bytes from a store by its identity. -/
def readBlob (dest : DestBlobStore) (i : List Nat) : Option (List Nat) :=
  (dest.find? (fun e => e.fst = i)).map Prod.snd

/-- Fuel-indexed batch splitter: each step takes one element plus up to
`n` following ones.  The fuel only bounds the recursion depth; with fuel
at least the list length it never runs out. -/
def toBatchesFuel (n : Nat) : Nat → List α → List (List α)
  | _, [] => []
  | 0, _ :: _ => []
  | fuel + 1, x :: xs => (x :: xs.take n) :: toBatchesFuel n fuel (xs.drop n)

/-- Split a list into consecutive batches of `n + 1` elements each (the
last batch may be shorter). -/
def toBatches (n : Nat) (l : List α) : List (List α) :=
  toBatchesFuel n l.length l

/-- Modelled from the spec and test harness: the blob migrator.  The
per-batch fetch bound is the module-level constant `_BLOB_BATCH_SIZE`
(the test suite patches it with `mock.patch.object(data_migration,
"_BLOB_BATCH_SIZE", 1)`), held here as a field so it can be varied the
way the patching does. -/
structure BlobsMigrator where
  blobBatchSize : Nat

/-- Modelled from the spec and test harness: `BlobsMigrator.Execute`.
Repeatedly fetch up to `_BLOB_BATCH_SIZE` not-yet-attempted identities
from the legacy enumeration, read each blob and write it to the
destination with `writeBlobIfAbsent`, until the enumeration is
exhausted.  The argument of `Execute` (`2` in the test, with the batch
size patched to `1`) configures worker parallelism only and does not
enter the batching, so this sequential model ignores it. -/
def BlobsMigrator.execute (m : BlobsMigrator) (_threads : Nat)
    (legacy : LegacyBlobStore) (dest : DestBlobStore) : DestBlobStore :=
  (toBatches (m.blobBatchSize - 1) legacy.blobs).foldl
    (fun d batch => batch.foldl writeBlobIfAbsent d) dest

/-- The sizes of the identity batches fetched during
`BlobsMigrator.execute` with the given argument. -/
def BlobsMigrator.executeFetchCounts (m : BlobsMigrator) (_threads : Nat)
    (legacy : LegacyBlobStore) : List Nat :=
  (toBatches (m.blobBatchSize - 1) legacy.blobs).map List.length

/-- A raw legacy history entry: either parseable to a
`(timestamp, value)` pair, or malformed. -/
inductive RawEntry where
  | valid : Nat → Nat → RawEntry
  | corrupt : RawEntry
deriving DecidableEq

/-- Parse one raw history entry. -/
def parseEntry : RawEntry → Option (Nat × Nat)
  | RawEntry.valid t v => some (t, v)
  | RawEntry.corrupt => none

/-- Result of reading one node's history for one kind: the parsed
entries, and the number of recorded warnings. -/
structure ReadResult where
  entries : List (Nat × Nat)
  warnings : Nat
deriving DecidableEq

/-- Modelled from the spec: the Versioned Attribute Reader over one
node's raw history — each malformed value is skipped with a recorded
warning and never aborts the remaining history. -/
def readHistory : List RawEntry → ReadResult
  | [] => { entries := [], warnings := 0 }
  | e :: es =>
    match parseEntry e with
    | some v => { entries := v :: (readHistory es).entries,
                  warnings := (readHistory es).warnings }
    | none => { entries := (readHistory es).entries,
                warnings := (readHistory es).warnings + 1 }

/-- The three paths probed by `GetInstallDate.Run` in `osx.py`, in
order. -/
def installDateCandidatePaths : List String :=
  ["/var/log/CDIS.custom", "/var", "/private"]

/-- The probing loop of `GetInstallDate.Run`: `st` models `os.stat`,
giving the integer `st_ctime` of a path or `none` when `stat` raises
`OSError`.  The returned list is the sequence of replies sent. -/
def getInstallDateLoop (st : String → Option Int) : List String → List Int
  | [] => [0]
  | f :: fs =>
    match st f with
    | some t => [t]
    | none => getInstallDateLoop st fs

/-- `GetInstallDate.Run` from `osx.py`: stat each candidate path in
order, reply with the first successful `st_ctime` and stop; reply with
`0` if all three raise `OSError`. -/
def GetInstallDateRun (st : String → Option Int) : List Int :=
  getInstallDateLoop st installDateCandidatePaths

/-- Concrete legacy data mirroring the status-history test: one
OS-filesystem leaf with three status snapshots. -/
def statHistorySample : VfsSource :=
  { leaves := [PathIdentifier.mk PathType.os ["foo"]],
    statHistories := [(PathIdentifier.mk PathType.os ["foo"], [(1, 10), (2, 20), (3, 30)])],
    hashHistories := [] }

/-- Concrete legacy data with hash history only. -/
def hashOnlySample : VfsSource :=
  { leaves := [PathIdentifier.mk PathType.os ["bar"]],
    statHistories := [],
    hashHistories := [(PathIdentifier.mk PathType.os ["bar"], [(5, 77)])] }

/-- Concrete legacy data with a two-level leaf carrying one status
snapshot. -/
def treeSample : VfsSource :=
  { leaves := [PathIdentifier.mk PathType.os ["foo", "bar"]],
    statHistories := [(PathIdentifier.mk PathType.os ["foo", "bar"], [(7, 101)])],
    hashHistories := [] }

/-- Concrete legacy blob store with two distinct 1024-byte blobs. -/
def blobSample : LegacyBlobStore :=
  { blobs := [([1], List.replicate 1024 65), ([2], List.replicate 1024 66)] }

theorem mem_flatMapList {f : α → List β} {l : List α} {b : β} :
    b ∈ flatMapList f l ↔ ∃ a ∈ l, b ∈ f a := by
  induction l with
  | nil => simp [flatMapList]
  | cons x xs ih =>
    simp only [flatMapList, List.mem_append, ih, List.mem_cons]
    constructor
    · rintro (h | ⟨a, ha, hb⟩)
      · exact ⟨x, Or.inl rfl, h⟩
      · exact ⟨a, Or.inr ha, hb⟩
    · rintro ⟨a, ha | ha, hb⟩
      · subst ha; exact Or.inl hb
      · exact Or.inr ⟨a, ha, hb⟩

theorem mem_ancestors_iff (p q : PathIdentifier) :
    q ∈ p.ancestors ↔ ∃ n, 0 < n ∧ n < p.components.length ∧ q = p.takeComponents n := by
  constructor
  · intro hq
    rcases List.mem_map.mp hq with ⟨n, hn, rfl⟩
    refine ⟨n + 1, Nat.succ_pos n, ?_, rfl⟩
    have := List.mem_range.mp hn
    omega
  · rintro ⟨n, hn0, hnlt, rfl⟩
    refine List.mem_map.mpr ⟨n - 1, List.mem_range.mpr (by omega), ?_⟩
    have : n - 1 + 1 = n := by omega
    rw [this]

theorem mem_listVfs_iff (leaves : List PathIdentifier) (p : PathIdentifier) :
    p ∈ listVfs leaves ↔
      (¬ p.components.isEmpty) ∧ ∃ l ∈ leaves, p = l ∨ p ∈ l.ancestors := by
  unfold listVfs
  rw [List.mem_dedup, List.mem_filter]
  simp only [mem_flatMapList, List.mem_append, List.mem_singleton, decide_not,
    Bool.not_eq_eq_eq_not, Bool.not_true, decide_eq_false_iff_not]
  constructor
  · rintro ⟨⟨a, ha, hpa⟩, hne⟩
    rcases hpa with h | h
    · exact ⟨hne, a, ha, Or.inr h⟩
    · exact ⟨hne, a, ha, Or.inl h⟩
  · rintro ⟨hne, l, hl, hp⟩
    refine ⟨⟨l, hl, ?_⟩, hne⟩
    rcases hp with h | h
    · exact Or.inr h
    · exact Or.inl h

theorem filter_flatMapList (q : β → Bool) (f : α → List β) (l : List α) :
    (flatMapList f l).filter q = flatMapList (fun a => (f a).filter q) l := by
  induction l with
  | nil => rfl
  | cons x xs ih => simp [flatMapList, List.filter_append, ih]

theorem map_flatMapList (g : β → γ) (f : α → List β) (l : List α) :
    (flatMapList f l).map g = flatMapList (fun a => (f a).map g) l := by
  induction l with
  | nil => rfl
  | cons x xs ih => simp [flatMapList, ih]

theorem flatMapList_eq_nil (f : α → List β) (l : List α)
    (h : ∀ a ∈ l, f a = []) : flatMapList f l = [] := by
  induction l with
  | nil => rfl
  | cons x xs ih =>
    simp only [flatMapList, h x (by simp), List.nil_append]
    exact ih (fun a ha => h a (by simp [ha]))

theorem flatMapList_single [DecidableEq α] (u : α → List β) (l : List α) (p : α)
    (hl : l.Nodup) (hp : p ∈ l) :
    flatMapList (fun q => if q = p then u q else []) l = u p := by
  induction l with
  | nil => simp at hp
  | cons x xs ih =>
    rcases List.mem_cons.mp hp with h | h
    · have hnx : x ∉ xs := (List.nodup_cons.mp hl).1
      have hEmp : flatMapList (fun q => if q = p then u q else []) xs = [] := by
        apply flatMapList_eq_nil
        intro a ha
        apply if_neg
        intro he
        rw [he] at ha
        rw [← h] at hnx
        exact hnx ha
      simp [flatMapList, hEmp, h.symm]
    · have hxp : x ≠ p := by
        intro he
        rw [he] at hl
        exact (List.nodup_cons.mp hl).1 h
      simp only [flatMapList, if_neg hxp, List.nil_append]
      exact ih (List.nodup_cons.mp hl).2 h

theorem listVfs_nodup (leaves : List PathIdentifier) : (listVfs leaves).Nodup :=
  List.nodup_dedup _

theorem takeComponents_length (p : PathIdentifier) (n : Nat)
    (h : n ≤ p.components.length) : (p.takeComponents n).components.length = n := by
  simp [PathIdentifier.takeComponents]
  omega

theorem listVfs_closed (leaves : List PathIdentifier) (p : PathIdentifier)
    (hp : p ∈ listVfs leaves) (n : Nat) (hn0 : 0 < n) (hn : n < p.components.length) :
    p.takeComponents n ∈ listVfs leaves := by
  rcases (mem_listVfs_iff leaves p).mp hp with ⟨hne, l, hl, hcase⟩
  apply (mem_listVfs_iff leaves _).mpr
  constructor
  · have : (p.takeComponents n).components.length = n :=
      takeComponents_length p n (le_of_lt hn)
    simp only [List.isEmpty_iff]
    intro hnil
    rw [hnil] at this
    simp at this
    omega
  · refine ⟨l, hl, Or.inr ?_⟩
    rcases hcase with h | h
    · rw [h]
      rw [h] at hn
      exact (mem_ancestors_iff l _).mpr ⟨n, hn0, hn, rfl⟩
    · rcases (mem_ancestors_iff l p).mp h with ⟨m, hm0, hmlt, rfl⟩
      have hlen : (l.takeComponents m).components.length = m :=
        takeComponents_length l m (le_of_lt hmlt)
      have hnm : n < m := by rw [hlen] at hn; exact hn
      have heq : (l.takeComponents m).takeComponents n = l.takeComponents n := by
        simp [PathIdentifier.takeComponents, List.take_take, Nat.min_eq_left (le_of_lt hnm)]
      rw [heq]
      exact (mem_ancestors_iff l _).mpr ⟨n, hn0, lt_trans hnm hmlt, rfl⟩

theorem flatMapList_congr (f g : α → List β) (l : List α) (h : ∀ a ∈ l, f a = g a) :
    flatMapList f l = flatMapList g l := by
  induction l with
  | nil => rfl
  | cons x xs ih =>
    simp only [flatMapList, h x (by simp)]
    rw [ih (fun a ha => h a (by simp [ha]))]

theorem recordTimes_ne_nil (s h : List (Nat × Nat)) (hne : ¬((s.isEmpty && h.isEmpty) = true)) :
    recordTimes s h ≠ [] := by
  unfold recordTimes
  intro hnil
  rw [List.dedup_eq_nil] at hnil
  rcases List.append_eq_nil.mp hnil with ⟨hs, hh⟩
  rw [List.map_eq_nil_iff] at hs hh
  simp [hs, hh] at hne

theorem recordTimes_nodup (s h : List (Nat × Nat)) : (recordTimes s h).Nodup :=
  List.nodup_dedup _

theorem pathRecords_ne_nil (src : VfsSource) (p : PathIdentifier) :
    pathRecords src p ≠ [] := by
  unfold pathRecords
  by_cases hc : ((src.statHistory p).isEmpty && (src.hashHistory p).isEmpty) = true
  · rw [if_pos hc]
    simp
  · rw [if_neg hc]
    intro hnil
    rw [List.map_eq_nil_iff] at hnil
    exact recordTimes_ne_nil _ _ hc hnil

theorem pathRecords_keys_nodup (src : VfsSource) (p : PathIdentifier) :
    ((pathRecords src p).map Prod.fst).Nodup := by
  unfold pathRecords
  by_cases hc : ((src.statHistory p).isEmpty && (src.hashHistory p).isEmpty) = true
  · rw [if_pos hc]
    simp
  · rw [if_neg hc, List.map_map]
    have hcomp : (Prod.fst ∘ fun t =>
        ((some t : Option Nat),
          ({ stat := valueAt (src.statHistory p) t,
             hash := valueAt (src.hashHistory p) t } : PathRecord))) = Option.some := rfl
    rw [hcomp]
    exact (recordTimes_nodup _ _).map (Option.some_injective Nat)

theorem nodup_flatMapList_tagged {l : List α} (hl : l.Nodup)
    (g : α → List γ) (hg : ∀ q ∈ l, (g q).Nodup) :
    (flatMapList (fun q => (g q).map (fun t => (q, t))) l).Nodup := by
  induction l with
  | nil => exact List.nodup_nil
  | cons x xs ih =>
    show (((g x).map (fun t => (x, t))) ++
      flatMapList (fun q => (g q).map (fun t => (q, t))) xs).Nodup
    apply List.Nodup.append
    · refine (hg x (by simp)).map ?_
      intro a b hab
      exact congrArg Prod.snd hab
    · exact ih (List.nodup_cons.mp hl).2 (fun q hq => hg q (by simp [hq]))
    · intro e he1 he2
      rcases List.mem_map.mp he1 with ⟨t, _, rfl⟩
      rcases mem_flatMapList.mp he2 with ⟨q, hq, hmem⟩
      rcases List.mem_map.mp hmem with ⟨t', _, heq⟩
      have hqx : q = x := congrArg Prod.fst heq
      exact (List.nodup_cons.mp hl).1 (hqx ▸ hq)

theorem migrateRecords_keys_nodup (src : VfsSource) :
    ((migrateRecords src).map Prod.fst).Nodup := by
  unfold migrateRecords
  rw [map_flatMapList]
  have hrw : ∀ p ∈ listVfs src.leaves,
      ((pathRecords src p).map (fun e => ((p, e.fst), e.snd))).map Prod.fst
        = ((pathRecords src p).map Prod.fst).map (fun t => (p, t)) := by
    intro p _
    rw [List.map_map, List.map_map]
    rfl
  rw [flatMapList_congr _ _ _ hrw]
  exact nodup_flatMapList_tagged (listVfs_nodup _) _
    (fun q _ => pathRecords_keys_nodup src q)

theorem upsert_of_not_mem (db : DestDB) (k : PathIdentifier × Option Nat) (r : PathRecord)
    (h : ∀ f ∈ db, f.fst ≠ k) : upsert db k r = db ++ [(k, r)] := by
  unfold upsert
  rw [if_neg]
  intro hany
  rcases List.any_eq_true.mp hany with ⟨f, hf, hfk⟩
  exact h f hf (by simpa using hfk)

theorem foldl_upsert_disjoint : ∀ (recs db : DestDB),
    (∀ e ∈ recs, ∀ f ∈ db, f.fst ≠ e.fst) → (recs.map Prod.fst).Nodup →
    recs.foldl (fun d e => upsert d e.fst e.snd) db = db ++ recs := by
  intro recs
  induction recs with
  | nil => intro db _ _; simp
  | cons e rest ih =>
    intro db hdis hnod
    rw [List.foldl_cons,
      upsert_of_not_mem db e.fst e.snd (fun f hf => hdis e (by simp) f hf)]
    have hkey : e.fst ∉ rest.map Prod.fst := by
      rw [List.map_cons] at hnod
      exact (List.nodup_cons.mp hnod).1
    rw [ih (db ++ [(e.fst, e.snd)]) ?_ ?_]
    · simp
    · intro e' he' f hf
      rcases List.mem_append.mp hf with h | h
      · exact hdis e' (by simp [he']) f h
      · rcases List.mem_singleton.mp h with rfl
        intro hfe
        simp only at hfe
        exact hkey (hfe ▸ List.mem_map_of_mem Prod.fst he')
    · rw [List.map_cons] at hnod
      exact (List.nodup_cons.mp hnod).2

theorem migrateClientVfs_emptyDB (src : VfsSource) :
    migrateClientVfs src emptyDB = migrateRecords src := by
  unfold migrateClientVfs emptyDB
  rw [foldl_upsert_disjoint _ [] (by intro e _ f hf; simp at hf)
    (migrateRecords_keys_nodup src)]
  simp

theorem mergeRecord_self (r : PathRecord) : mergeRecord r r = r := by
  cases r with
  | mk s h => cases s <;> cases h <;> rfl

theorem foldl_upsert_identical : ∀ (recs db : DestDB),
    (∀ e ∈ recs, ∀ f ∈ db, f.fst = e.fst → f.snd = e.snd) →
    (∀ e ∈ recs, ∃ f ∈ db, f.fst = e.fst) →
    recs.foldl (fun d e => upsert d e.fst e.snd) db = db := by
  intro recs
  induction recs with
  | nil => intro db _ _; rfl
  | cons e rest ih =>
    intro db hval hpres
    rw [List.foldl_cons]
    have hup : upsert db e.fst e.snd = db := by
      unfold upsert
      rw [if_pos]
      · have hid : ∀ f ∈ db,
            (if f.fst = e.fst then (e.fst, mergeRecord f.snd e.snd) else f) = f := by
          intro f hf
          by_cases hfe : f.fst = e.fst
          · rw [if_pos hfe]
            have hsnd : f.snd = e.snd := hval e (by simp) f hf hfe
            rw [hsnd, mergeRecord_self, ← hfe, ← hsnd]
          · rw [if_neg hfe]
        rw [List.map_congr_left hid]
        exact List.map_id' db
      · rcases hpres e (by simp) with ⟨f, hf, hfe⟩
        exact List.any_eq_true.mpr ⟨f, hf, by simp [hfe]⟩
    rw [hup]
    exact ih db (fun e' he' f hf => hval e' (by simp [he']) f hf)
      (fun e' he' => hpres e' (by simp [he']))

theorem entriesFor_migrateRecords (src : VfsSource) (p : PathIdentifier)
    (hp : p ∈ listVfs src.leaves) :
    entriesFor (migrateRecords src) p = pathRecords src p := by
  unfold entriesFor migrateRecords
  rw [filter_flatMapList, map_flatMapList]
  have hfn : ∀ q ∈ listVfs src.leaves,
      (((pathRecords src q).map (fun e => ((q, e.fst), e.snd))).filter
          (fun e => e.fst.fst = p)).map (fun e => (e.fst.snd, e.snd))
        = (if q = p then pathRecords src q else []) := by
    intro q _
    by_cases hqp : q = p
    · subst hqp
      rw [if_pos rfl, List.filter_map]
      have hall : ∀ a ∈ pathRecords src q,
          ((fun e => decide (e.fst.fst = q)) ∘ fun e => ((q, e.fst), e.snd)) a = true := by
        intro a _
        simp
      rw [List.filter_eq_self.mpr hall, List.map_map]
      have hco : ((fun e => (e.fst.snd, e.snd)) ∘
          (fun e : Option Nat × PathRecord => ((q, e.fst), e.snd)))
            = (fun e : Option Nat × PathRecord => e) := by
        funext e
        rfl
      rw [hco]
      exact List.map_id' _
    · rw [if_neg hqp]
      have hnil : ((pathRecords src q).map (fun e => ((q, e.fst), e.snd))).filter
          (fun e => e.fst.fst = p) = [] := by
        rw [List.filter_eq_nil_iff]
        intro a ha
        rcases List.mem_map.mp ha with ⟨e, _, rfl⟩
        simpa using hqp
      rw [hnil]
      rfl
  rw [flatMapList_congr _ _ _ hfn]
  exact flatMapList_single (fun q => pathRecords src q) (listVfs src.leaves) p
    (listVfs_nodup _) hp

theorem entriesFor_migrateRecords_not_mem (src : VfsSource) (p : PathIdentifier)
    (hp : p ∉ listVfs src.leaves) :
    entriesFor (migrateRecords src) p = [] := by
  unfold entriesFor migrateRecords
  rw [filter_flatMapList]
  rw [flatMapList_eq_nil]
  · rfl
  · intro q hq
    rw [List.filter_eq_nil_iff]
    intro a ha
    rcases List.mem_map.mp ha with ⟨e, _, rfl⟩
    have hqp : q ≠ p := by
      intro he
      exact hp (he ▸ hq)
    simpa using hqp

theorem entriesFor_ne_nil_iff (src : VfsSource) (p : PathIdentifier) :
    entriesFor (migrateRecords src) p ≠ [] ↔ p ∈ listVfs src.leaves := by
  constructor
  · intro hne
    by_contra hp
    exact hne (entriesFor_migrateRecords_not_mem src p hp)
  · intro hp
    rw [entriesFor_migrateRecords src p hp]
    exact pathRecords_ne_nil src p

theorem bestOf_eq_none_iff (cs : List (Nat × Nat)) : bestOf cs = none ↔ cs = [] := by
  cases cs with
  | nil => simp [bestOf]
  | cons c cs =>
    simp only [bestOf]
    cases bestOf cs with
    | none => simp [pickBest]
    | some b =>
      by_cases h : c.fst < b.fst <;> simp [pickBest, h]

theorem bestOf_spec : ∀ (cs : List (Nat × Nat)) (c : Nat × Nat),
    bestOf cs = some c → c ∈ cs ∧ ∀ d ∈ cs, d.fst ≤ c.fst := by
  intro cs
  induction cs with
  | nil => intro c h; simp [bestOf] at h
  | cons x xs ih =>
    intro c h
    simp only [bestOf] at h
    cases hx : bestOf xs with
    | none =>
      rw [hx] at h
      simp only [pickBest] at h
      have hxc : x = c := by simpa using h
      have hnil : xs = [] := (bestOf_eq_none_iff xs).mp hx
      subst hnil
      constructor
      · simp [hxc]
      · intro d hd
        rcases List.mem_singleton.mp hd with rfl
        rw [hxc]
    | some b =>
      rw [hx] at h
      simp only [pickBest] at h
      rcases ih b hx with ⟨hbmem, hbmax⟩
      by_cases hlt : x.fst < b.fst
      · rw [if_pos hlt] at h
        have hbc : b = c := by simpa using h
        subst hbc
        refine ⟨List.mem_cons_of_mem _ hbmem, ?_⟩
        intro d hd
        rcases List.mem_cons.mp hd with rfl | hd
        · exact le_of_lt hlt
        · exact hbmax d hd
      · rw [if_neg hlt] at h
        have hxc : x = c := by simpa using h
        subst hxc
        refine ⟨by simp, ?_⟩
        intro d hd
        rcases List.mem_cons.mp hd with rfl | hd
        · exact le_refl _
        · exact le_trans (hbmax d hd) (Nat.le_of_not_lt hlt)

theorem bestOf_max (cs : List (Nat × Nat)) (c : Nat × Nat) (hc : c ∈ cs)
    (hmax : ∀ d ∈ cs, d.fst ≤ c.fst)
    (hfn : ∀ d ∈ cs, d.fst = c.fst → d = c) : bestOf cs = some c := by
  cases hb : bestOf cs with
  | none =>
    rw [bestOf_eq_none_iff] at hb
    subst hb
    simp at hc
  | some b =>
    rcases bestOf_spec cs b hb with ⟨hbmem, hbmax⟩
    have h1 : b.fst ≤ c.fst := hmax b hbmem
    have h2 : c.fst ≤ b.fst := hbmax c hc
    rw [hfn b hbmem (le_antisymm h1 h2)]

theorem bestOf_congr (cs ds : List (Nat × Nat)) (hmem : ∀ x, x ∈ cs ↔ x ∈ ds)
    (hfn : ∀ a ∈ ds, ∀ b ∈ ds, a.fst = b.fst → a = b) : bestOf cs = bestOf ds := by
  cases hd : bestOf ds with
  | none =>
    rw [bestOf_eq_none_iff] at hd
    subst hd
    rw [bestOf_eq_none_iff]
    rw [List.eq_nil_iff_forall_not_mem]
    intro x hx
    exact (List.not_mem_nil x) ((hmem x).mp hx)
  | some c =>
    rcases bestOf_spec ds c hd with ⟨hcmem, hcmax⟩
    exact bestOf_max cs c ((hmem c).mpr hcmem)
      (fun d hd2 => hcmax d ((hmem d).mp hd2))
      (fun d hd2 he => hfn d ((hmem d).mp hd2) c hcmem he)

theorem pairwise_functional (s : List (Nat × Nat))
    (hwf : s.Pairwise (fun a b => a.fst < b.fst)) :
    ∀ a ∈ s, ∀ b ∈ s, a.fst = b.fst → a = b := by
  induction s with
  | nil => simp
  | cons e es ih =>
    rw [List.pairwise_cons] at hwf
    intro a ha b hb hab
    rcases List.mem_cons.mp ha with rfl | ha2 <;> rcases List.mem_cons.mp hb with rfl | hb2
    · rfl
    · exfalso
      have := hwf.1 b hb2
      omega
    · exfalso
      have := hwf.1 a ha2
      omega
    · exact ih hwf.2 a ha2 b hb2 hab

theorem valueAt_mem (hist : List (Nat × Nat))
    (hwf : hist.Pairwise (fun a b => a.fst < b.fst)) (t v : Nat) :
    (t, v) ∈ hist ↔ valueAt hist t = some v := by
  induction hist with
  | nil => simp [valueAt]
  | cons e es ih =>
    rw [List.pairwise_cons] at hwf
    unfold valueAt
    by_cases het : e.fst = t
    · rw [List.find?_cons_of_pos _ (by simpa using het)]
      simp only [Option.map_some', Option.some.injEq]
      constructor
      · intro hmem
        rcases List.mem_cons.mp hmem with h | h
        · rw [← h]
        · exfalso
          have := hwf.1 (t, v) h
          rw [het] at this
          omega
      · intro hv
        have : e = (t, v) := by
          rcases e with ⟨ef, es2⟩
          simp only at het hv
          rw [het, hv]
        rw [← this]
        simp
    · rw [List.find?_cons_of_neg _ (by simpa using het)]
      rw [List.mem_cons]
      unfold valueAt at ih
      rw [← ih hwf.2]
      constructor
      · rintro (h | h)
        · exfalso
          apply het
          rw [← h]
        · exact h
      · intro h
        exact Or.inr h

theorem fieldCandidates_map_mem (field : PathRecord → Option Nat) (mk : Nat → PathRecord)
    (s : List (Nat × Nat)) (times : List Nat) (T : Nat)
    (hmk : ∀ u, field (mk u) = valueAt s u)
    (hwf : s.Pairwise (fun a b => a.fst < b.fst))
    (htimes : ∀ u w, (u, w) ∈ s → u ∈ times) (t v : Nat) :
    ((t, v) ∈ fieldCandidates field (times.map (fun u => (some u, mk u))) T) ↔
      ((t, v) ∈ s ∧ t ≤ T) := by
  unfold fieldCandidates
  rw [List.mem_filterMap]
  constructor
  · rintro ⟨a, ha, hfa⟩
    rcases List.mem_map.mp ha with ⟨u, _, rfl⟩
    dsimp only at hfa
    rw [hmk u] at hfa
    cases hv : valueAt s u with
    | none =>
      rw [hv] at hfa
      simp at hfa
    | some w =>
      rw [hv] at hfa
      dsimp only at hfa
      by_cases hle : u ≤ T
      · rw [if_pos hle] at hfa
        have huw : u = t ∧ w = v := by simpa [Prod.ext_iff] using hfa
        rcases huw with ⟨rfl, rfl⟩
        exact ⟨(valueAt_mem s hwf u w).mpr hv, hle⟩
      · rw [if_neg hle] at hfa
        simp at hfa
  · rintro ⟨hmem, hle⟩
    refine ⟨(some t, mk t), List.mem_map.mpr ⟨t, htimes t v hmem, rfl⟩, ?_⟩
    dsimp only
    rw [hmk t, (valueAt_mem s hwf t v).mp hmem]
    simp [hle]

theorem histOf_pairwise (hs : List (PathIdentifier × List (Nat × Nat))) (hw : HistWF hs)
    (p : PathIdentifier) : (histOf hs p).Pairwise (fun a b => a.fst < b.fst) := by
  unfold histOf
  cases hf : hs.find? (fun e => e.fst = p) with
  | none => simp
  | some e =>
    simp only [Option.map_some', Option.getD_some]
    exact hw e (List.mem_of_find?_eq_some hf)

theorem mem_recordTimes_left (s h : List (Nat × Nat)) (u w : Nat) (hm : (u, w) ∈ s) :
    u ∈ recordTimes s h := by
  unfold recordTimes
  rw [List.mem_dedup]
  exact List.mem_append_left _ (List.mem_map_of_mem Prod.fst hm)

theorem mem_recordTimes_right (s h : List (Nat × Nat)) (u w : Nat) (hm : (u, w) ∈ h) :
    u ∈ recordTimes s h := by
  unfold recordTimes
  rw [List.mem_dedup]
  exact List.mem_append_right _ (List.mem_map_of_mem Prod.fst hm)

theorem readPathInfo_migrate (src : VfsSource) (hw : src.WF) (p : PathIdentifier)
    (hp : p ∈ listVfs src.leaves) (T : Nat) :
    readPathInfo (migrateClientVfs src emptyDB) p T =
      some { stat := specLatestAtOrBefore (src.statHistory p) T,
             hash := specLatestAtOrBefore (src.hashHistory p) T } := by
  have hswf := histOf_pairwise src.statHistories hw.1 p
  have hhwf := histOf_pairwise src.hashHistories hw.2 p
  rw [migrateClientVfs_emptyDB]
  unfold readPathInfo
  rw [entriesFor_migrateRecords src p hp]
  rw [if_neg (by simpa [List.isEmpty_iff] using pathRecords_ne_nil src p)]
  by_cases hc : ((src.statHistory p).isEmpty && (src.hashHistory p).isEmpty) = true
  · have hemp : src.statHistory p = [] ∧ src.hashHistory p = [] := by
      simpa [List.isEmpty_iff] using hc
    unfold pathRecords
    rw [if_pos hc, hemp.1, hemp.2]
    rfl
  · unfold pathRecords
    rw [if_neg hc]
    have hstat : bestOf (fieldCandidates PathRecord.stat
        ((recordTimes (src.statHistory p) (src.hashHistory p)).map
          (fun t => (some t, { stat := valueAt (src.statHistory p) t,
                               hash := valueAt (src.hashHistory p) t }))) T)
        = bestOf ((src.statHistory p).filter (fun e => e.fst ≤ T)) := by
      apply bestOf_congr
      · intro x
        rcases x with ⟨t, v⟩
        rw [fieldCandidates_map_mem PathRecord.stat
          (fun t => { stat := valueAt (src.statHistory p) t,
                      hash := valueAt (src.hashHistory p) t })
          (src.statHistory p) (recordTimes (src.statHistory p) (src.hashHistory p)) T
          (fun u => rfl) hswf
          (fun u w hm => mem_recordTimes_left _ _ u w hm) t v,
          List.mem_filter]
        simp
      · intro a ha b hb hab
        exact pairwise_functional _ hswf a (List.mem_of_mem_filter ha) b
          (List.mem_of_mem_filter hb) hab
    have hhash : bestOf (fieldCandidates PathRecord.hash
        ((recordTimes (src.statHistory p) (src.hashHistory p)).map
          (fun t => (some t, { stat := valueAt (src.statHistory p) t,
                               hash := valueAt (src.hashHistory p) t }))) T)
        = bestOf ((src.hashHistory p).filter (fun e => e.fst ≤ T)) := by
      apply bestOf_congr
      · intro x
        rcases x with ⟨t, v⟩
        rw [fieldCandidates_map_mem PathRecord.hash
          (fun t => { stat := valueAt (src.statHistory p) t,
                      hash := valueAt (src.hashHistory p) t })
          (src.hashHistory p) (recordTimes (src.statHistory p) (src.hashHistory p)) T
          (fun u => rfl) hhwf
          (fun u w hm => mem_recordTimes_right _ _ u w hm) t v,
          List.mem_filter]
        simp
      · intro a ha b hb hab
        exact pairwise_functional _ hhwf a (List.mem_of_mem_filter ha) b
          (List.mem_of_mem_filter hb) hab
    rw [hstat, hhash]
    rfl

theorem specLatest_isSome (hist : List (Nat × Nat)) (T : Nat)
    (hex : ∃ e ∈ hist, e.fst ≤ T) : (specLatestAtOrBefore hist T).isSome = true := by
  unfold specLatestAtOrBefore
  rcases hex with ⟨e, he, hle⟩
  have hne : hist.filter (fun x => x.fst ≤ T) ≠ [] := by
    intro hnil
    rw [List.filter_eq_nil_iff] at hnil
    exact hnil e he (by simpa using hle)
  cases hb : bestOf (hist.filter (fun x => x.fst ≤ T)) with
  | none => exact absurd ((bestOf_eq_none_iff _).mp hb) hne
  | some c => simp

theorem specLatestAtOrBefore_three (t1 t2 t3 a b c T : Nat) (h12 : t1 < t2) (h23 : t2 < t3) :
    specLatestAtOrBefore [(t1, a), (t2, b), (t3, c)] T =
      (if t3 ≤ T then some c else if t2 ≤ T then some b
       else if t1 ≤ T then some a else none) := by
  unfold specLatestAtOrBefore
  by_cases h3 : t3 ≤ T
  · have h1 : t1 ≤ T := by omega
    have h2 : t2 ≤ T := by omega
    have h13 : t1 < t3 := by omega
    simp [h1, h2, h3, bestOf, pickBest, h23, h13]
  · by_cases h2 : t2 ≤ T
    · have h1 : t1 ≤ T := by omega
      simp [h1, h2, h3, bestOf, pickBest, h12]
    · by_cases h1 : t1 ≤ T
      · simp [h1, h2, h3, bestOf, pickBest]
      · simp [h1, h2, h3, bestOf, pickBest]

theorem toBatchesFuel_foldl (f : β → α → β) (n : Nat) :
    ∀ (fuel : Nat) (l : List α), l.length ≤ fuel → ∀ d : β,
      (toBatchesFuel n fuel l).foldl (fun acc bt => bt.foldl f acc) d = l.foldl f d := by
  intro fuel
  induction fuel with
  | zero =>
    intro l hl d
    cases l with
    | nil => rfl
    | cons x xs => simp at hl
  | succ fuel ih =>
    intro l hl d
    cases l with
    | nil => rfl
    | cons x xs =>
      show (((x :: xs.take n) :: toBatchesFuel n fuel (xs.drop n)).foldl
        (fun acc bt => bt.foldl f acc) d) = (x :: xs).foldl f d
      rw [List.foldl_cons,
        ih (xs.drop n) (by simp at hl ⊢; omega) ((x :: xs.take n).foldl f d),
        List.foldl_cons, List.foldl_cons, ← List.foldl_append, List.take_append_drop]

theorem toBatches_foldl (f : β → α → β) (n : Nat) (l : List α) (d : β) :
    (toBatches n l).foldl (fun acc bt => bt.foldl f acc) d = l.foldl f d :=
  toBatchesFuel_foldl f n l.length l (le_refl _) d

theorem toBatchesFuel_length_le (n : Nat) :
    ∀ (fuel : Nat) (l : List α), ∀ bt ∈ toBatchesFuel n fuel l, bt.length ≤ n + 1 := by
  intro fuel
  induction fuel with
  | zero =>
    intro l bt hbt
    cases l with
    | nil => simp [toBatchesFuel] at hbt
    | cons x xs => simp [toBatchesFuel] at hbt
  | succ fuel ih =>
    intro l bt hbt
    cases l with
    | nil => simp [toBatchesFuel] at hbt
    | cons x xs =>
      simp only [toBatchesFuel] at hbt
      rcases List.mem_cons.mp hbt with rfl | h
      · have := List.length_take n xs
        simp only [List.length_cons]
        omega
      · exact ih (xs.drop n) bt h

theorem execute_eq_foldl (m : BlobsMigrator) (th : Nat) (legacy : LegacyBlobStore)
    (dest : DestBlobStore) :
    m.execute th legacy dest = legacy.blobs.foldl writeBlobIfAbsent dest := by
  unfold BlobsMigrator.execute
  exact toBatches_foldl writeBlobIfAbsent _ legacy.blobs dest

theorem writeBlob_keys_mono (d : DestBlobStore) (x e : List Nat × List Nat)
    (h : d.any (fun f => f.fst = e.fst) = true) :
    (writeBlobIfAbsent d x).any (fun f => f.fst = e.fst) = true := by
  unfold writeBlobIfAbsent
  by_cases hx : d.any (fun f => f.fst = x.fst) = true
  · rw [if_pos hx]
    exact h
  · rw [if_neg hx]
    rcases List.any_eq_true.mp h with ⟨f, hf, hfe⟩
    exact List.any_eq_true.mpr ⟨f, List.mem_append_left _ hf, hfe⟩

theorem writeBlob_key_self (d : DestBlobStore) (x : List Nat × List Nat) :
    (writeBlobIfAbsent d x).any (fun f => f.fst = x.fst) = true := by
  unfold writeBlobIfAbsent
  by_cases hx : d.any (fun f => f.fst = x.fst) = true
  · rw [if_pos hx]
    exact hx
  · rw [if_neg hx]
    exact List.any_eq_true.mpr ⟨x, List.mem_append_right _ (by simp), by simp⟩

theorem foldl_writeBlob_keys_mono :
    ∀ (l : List (List Nat × List Nat)) (d : DestBlobStore) (e : List Nat × List Nat),
      d.any (fun f => f.fst = e.fst) = true →
      (l.foldl writeBlobIfAbsent d).any (fun f => f.fst = e.fst) = true := by
  intro l
  induction l with
  | nil => intro d e h; exact h
  | cons x xs ih =>
    intro d e h
    rw [List.foldl_cons]
    exact ih (writeBlobIfAbsent d x) e (writeBlob_keys_mono d x e h)

theorem foldl_writeBlob_key_present :
    ∀ (l : List (List Nat × List Nat)) (d : DestBlobStore), ∀ e ∈ l,
      (l.foldl writeBlobIfAbsent d).any (fun f => f.fst = e.fst) = true := by
  intro l
  induction l with
  | nil => intro d e he; simp at he
  | cons x xs ih =>
    intro d e he
    rw [List.foldl_cons]
    rcases List.mem_cons.mp he with rfl | he2
    · exact foldl_writeBlob_keys_mono xs _ e (writeBlob_key_self d e)
    · exact ih (writeBlobIfAbsent d x) e he2

theorem foldl_writeBlob_of_present :
    ∀ (l : List (List Nat × List Nat)) (d : DestBlobStore),
      (∀ e ∈ l, d.any (fun f => f.fst = e.fst) = true) →
      l.foldl writeBlobIfAbsent d = d := by
  intro l
  induction l with
  | nil => intro d _; rfl
  | cons x xs ih =>
    intro d h
    rw [List.foldl_cons]
    have hw : writeBlobIfAbsent d x = d := by
      unfold writeBlobIfAbsent
      rw [if_pos (h x (by simp))]
    rw [hw]
    exact ih d (fun e he => h e (by simp [he]))

theorem readBlob_writeBlob_mono (d : DestBlobStore) (x : List Nat × List Nat)
    (i : List Nat) (c : List Nat) (h : readBlob d i = some c) :
    readBlob (writeBlobIfAbsent d x) i = some c := by
  unfold writeBlobIfAbsent
  by_cases hx : d.any (fun f => f.fst = x.fst) = true
  · rw [if_pos hx]
    exact h
  · rw [if_neg hx]
    unfold readBlob at h ⊢
    rw [List.find?_append]
    cases hf : d.find? (fun e => e.fst = i) with
    | none => rw [hf] at h; simp at h
    | some f =>
      rw [hf] at h
      exact h

theorem foldl_readBlob_mono :
    ∀ (l : List (List Nat × List Nat)) (d : DestBlobStore) (i c : List Nat),
      readBlob d i = some c → readBlob (l.foldl writeBlobIfAbsent d) i = some c := by
  intro l
  induction l with
  | nil => intro d i c h; exact h
  | cons x xs ih =>
    intro d i c h
    rw [List.foldl_cons]
    exact ih (writeBlobIfAbsent d x) i c (readBlob_writeBlob_mono d x i c h)

theorem foldl_writeBlob_reads :
    ∀ (l : List (List Nat × List Nat)) (d : DestBlobStore),
      (l.map Prod.fst).Nodup →
      (∀ e ∈ l, ¬ d.any (fun f => f.fst = e.fst) = true) →
      ∀ e ∈ l, readBlob (l.foldl writeBlobIfAbsent d) e.fst = some e.snd := by
  intro l
  induction l with
  | nil => intro d _ _ e he; simp at he
  | cons x xs ih =>
    intro d hnd hab e he
    rw [List.foldl_cons]
    have hw : writeBlobIfAbsent d x = d ++ [x] := by
      unfold writeBlobIfAbsent
      rw [if_neg (hab x (by simp))]
    rw [hw]
    rcases List.mem_cons.mp he with rfl | he2
    · apply foldl_readBlob_mono
      unfold readBlob
      rw [List.find?_append]
      have hdn : d.find? (fun f => f.fst = e.fst) = none := by
        rw [List.find?_eq_none]
        intro a ha hpa
        exact (hab e (by simp)) (List.any_eq_true.mpr ⟨a, ha, hpa⟩)
      rw [hdn]
      simp
    · apply ih (d ++ [x]) ?_ ?_ e he2
      · rw [List.map_cons] at hnd
        exact (List.nodup_cons.mp hnd).2
      · intro e' he' hany
        rcases List.any_eq_true.mp hany with ⟨f, hf, hfe⟩
        rcases List.mem_append.mp hf with hfd | hfx
        · exact hab e' (by simp [he']) (List.any_eq_true.mpr ⟨f, hfd, hfe⟩)
        · rcases List.mem_singleton.mp hfx with rfl
          have hmem : e'.fst ∈ xs.map Prod.fst := List.mem_map_of_mem Prod.fst he'
          have hx : f.fst ∉ xs.map Prod.fst := by
            rw [List.map_cons] at hnd
            exact (List.nodup_cons.mp hnd).1
          have hfe2 : f.fst = e'.fst := by simpa using hfe
          rw [hfe2] at hx
          exact hx hmem

theorem readHistory_complete : ∀ (l : List RawEntry) (t v : Nat),
    RawEntry.valid t v ∈ l → (t, v) ∈ (readHistory l).entries := by
  intro l
  induction l with
  | nil => simp
  | cons e es ih =>
    intro t v hm
    rcases List.mem_cons.mp hm with he | hm2
    · rw [← he]
      simp [readHistory, parseEntry]
    · cases e with
      | valid t2 v2 =>
        simp only [readHistory, parseEntry]
        exact List.mem_cons_of_mem _ (ih t v hm2)
      | corrupt =>
        simp only [readHistory, parseEntry]
        exact ih t v hm2

theorem readHistory_corrupt (xs ys : List RawEntry) :
    (readHistory (xs ++ RawEntry.corrupt :: ys)).entries
      = (readHistory (xs ++ ys)).entries ∧
    (readHistory (xs ++ RawEntry.corrupt :: ys)).warnings
      = (readHistory (xs ++ ys)).warnings + 1 := by
  induction xs with
  | nil => exact ⟨rfl, rfl⟩
  | cons e xs ih =>
    cases e with
    | valid t v =>
      simp only [List.cons_append, readHistory, parseEntry, List.append_eq]
      exact ⟨by rw [ih.1], by rw [ih.2]⟩
    | corrupt =>
      simp only [List.cons_append, readHistory, parseEntry, List.append_eq]
      exact ⟨ih.1, by rw [ih.2]⟩

theorem getInstallDateRun_eq (st : String → Option Int) :
    GetInstallDateRun st =
      [(((st "/var/log/CDIS.custom").orElse (fun _ => st "/var")).orElse
          (fun _ => st "/private")).getD 0] := by
  simp only [GetInstallDateRun, installDateCandidatePaths, getInstallDateLoop]
  cases h1 : st "/var/log/CDIS.custom" with
  | some t => rfl
  | none =>
    cases h2 : st "/var" with
    | some t => rfl
    | none =>
      cases h3 : st "/private" with
      | some t => rfl
      | none => rfl

/-- Claim C1: after MigrateClientVfs, a point-in-time read at `T`
returns, for each attribute kind independently, the snapshot with the
greatest timestamp at or before `T` in that kind's migrated history; in
particular, for three snapshots at `t1 < t2 < t3` the read resolves to
the `t3` snapshot when `t3 ≤ T`, the `t2` snapshot when `t2 ≤ T < t3`,
the `t1` snapshot when `t1 ≤ T < t2`, and absent when `T < t1` — for
status and hash histories alike. -/
theorem claim_C1_point_in_time_read (src : VfsSource) (hw : src.WF) (p : PathIdentifier)
    (hp : p ∈ listVfs src.leaves) (T : Nat) :
    readPathInfo (migrateClientVfs src emptyDB) p T =
      some { stat := specLatestAtOrBefore (src.statHistory p) T,
             hash := specLatestAtOrBefore (src.hashHistory p) T } ∧
    (∀ t1 t2 t3 a b c : Nat, t1 < t2 → t2 < t3 →
      src.statHistory p = [(t1, a), (t2, b), (t3, c)] →
      (readPathInfo (migrateClientVfs src emptyDB) p T).map PathRecord.stat =
        some (if t3 ≤ T then some c else if t2 ≤ T then some b
              else if t1 ≤ T then some a else none)) ∧
    (∀ t1 t2 t3 a b c : Nat, t1 < t2 → t2 < t3 →
      src.hashHistory p = [(t1, a), (t2, b), (t3, c)] →
      (readPathInfo (migrateClientVfs src emptyDB) p T).map PathRecord.hash =
        some (if t3 ≤ T then some c else if t2 ≤ T then some b
              else if t1 ≤ T then some a else none)) := by
  have hmain := readPathInfo_migrate src hw p hp T
  refine ⟨hmain, ?_, ?_⟩
  · intro t1 t2 t3 a b c h12 h23 hhist
    rw [hmain]
    simp only [Option.map_some']
    rw [hhist, specLatestAtOrBefore_three t1 t2 t3 a b c T h12 h23]
  · intro t1 t2 t3 a b c h12 h23 hhist
    rw [hmain]
    simp only [Option.map_some']
    rw [hhist, specLatestAtOrBefore_three t1 t2 t3 a b c T h12 h23]

theorem claim_C1_witness :
    readPathInfo (migrateClientVfs statHistorySample emptyDB)
        (PathIdentifier.mk PathType.os ["foo"]) 2 =
      some { stat := specLatestAtOrBefore
               (statHistorySample.statHistory (PathIdentifier.mk PathType.os ["foo"])) 2,
             hash := specLatestAtOrBefore
               (statHistorySample.hashHistory (PathIdentifier.mk PathType.os ["foo"])) 2 } :=
  (claim_C1_point_in_time_read statHistorySample (by decide)
    (PathIdentifier.mk PathType.os ["foo"]) (by decide) 2).1

/-- Claim C2: for every leaf set, the closure builder's output contains
every leaf (with at least one component) and every non-empty proper
prefix of every leaf, and contains no identifier with zero components;
concretely, for leaves foo/bar/baz and foo/quux/norf the closure is the
expected 5 identifiers. -/
theorem claim_C2_closure :
    (∀ leaves : List PathIdentifier,
      (∀ l ∈ leaves, l.components ≠ [] → l ∈ listVfs leaves) ∧
      (∀ l ∈ leaves, ∀ n : Nat, 0 < n → n < l.components.length →
        l.takeComponents n ∈ listVfs leaves) ∧
      (∀ p ∈ listVfs leaves, p.components ≠ [])) ∧
    (listVfs [PathIdentifier.mk PathType.os ["foo", "bar", "baz"],
              PathIdentifier.mk PathType.os ["foo", "quux", "norf"]]).length = 5 ∧
    (∀ q ∈ [PathIdentifier.mk PathType.os ["foo"],
            PathIdentifier.mk PathType.os ["foo", "bar"],
            PathIdentifier.mk PathType.os ["foo", "bar", "baz"],
            PathIdentifier.mk PathType.os ["foo", "quux"],
            PathIdentifier.mk PathType.os ["foo", "quux", "norf"]],
      q ∈ listVfs [PathIdentifier.mk PathType.os ["foo", "bar", "baz"],
                   PathIdentifier.mk PathType.os ["foo", "quux", "norf"]]) := by
  refine ⟨?_, by decide, by decide⟩
  intro leaves
  refine ⟨?_, ?_, ?_⟩
  · intro l hl hne
    exact (mem_listVfs_iff leaves l).mpr ⟨by simpa using hne, l, hl, Or.inl rfl⟩
  · intro l hl n hn0 hn
    refine (mem_listVfs_iff leaves _).mpr
      ⟨?_, l, hl, Or.inr ((mem_ancestors_iff l _).mpr ⟨n, hn0, hn, rfl⟩)⟩
    have hlen := takeComponents_length l n (le_of_lt hn)
    intro hemp
    rw [List.isEmpty_iff] at hemp
    rw [hemp] at hlen
    simp at hlen
    omega
  · intro p hp hnil
    exact ((mem_listVfs_iff leaves p).mp hp).1 (by simp [hnil])

theorem claim_C2_witness :
    PathIdentifier.mk PathType.os ["a", "b"]
        ∈ listVfs [PathIdentifier.mk PathType.os ["a", "b"]] ∧
    (PathIdentifier.mk PathType.os ["a", "b"]).takeComponents 1
        ∈ listVfs [PathIdentifier.mk PathType.os ["a", "b"]] :=
  ⟨(claim_C2_closure.1 [PathIdentifier.mk PathType.os ["a", "b"]]).1
      (PathIdentifier.mk PathType.os ["a", "b"]) (by decide) (by decide),
   (claim_C2_closure.1 [PathIdentifier.mk PathType.os ["a", "b"]]).2.1
      (PathIdentifier.mk PathType.os ["a", "b"]) (by decide) 1 (by decide) (by decide)⟩

/-- Claim C3: after MigrateClientVfs, every identifier holding a
destination record has a destination record for every non-empty proper
prefix as well, and a pure intermediate ancestor (no history of its own)
holds a single existence-only record whose point-in-time reads show both
attribute kinds absent — no fabricated metadata. -/
theorem claim_C3_ancestor_invariant (src : VfsSource) :
    (∀ p : PathIdentifier, entriesFor (migrateClientVfs src emptyDB) p ≠ [] →
      ∀ n : Nat, 0 < n → n < p.components.length →
        entriesFor (migrateClientVfs src emptyDB) (p.takeComponents n) ≠ []) ∧
    (∀ p ∈ listVfs src.leaves, src.statHistory p = [] → src.hashHistory p = [] →
      ∀ T : Nat, readPathInfo (migrateClientVfs src emptyDB) p T =
        some { stat := none, hash := none }) := by
  constructor
  · intro p hne n hn0 hn
    rw [migrateClientVfs_emptyDB] at hne ⊢
    have hp : p ∈ listVfs src.leaves := (entriesFor_ne_nil_iff src p).mp hne
    exact (entriesFor_ne_nil_iff src _).mpr (listVfs_closed src.leaves p hp n hn0 hn)
  · intro p hp hs hh T
    rw [migrateClientVfs_emptyDB]
    unfold readPathInfo
    rw [entriesFor_migrateRecords src p hp]
    rw [if_neg (by simpa [List.isEmpty_iff] using pathRecords_ne_nil src p)]
    unfold pathRecords
    rw [if_pos (by simp [hs, hh])]
    rfl

theorem claim_C3_witness :
    entriesFor (migrateClientVfs treeSample emptyDB)
        ((PathIdentifier.mk PathType.os ["foo", "bar"]).takeComponents 1) ≠ [] ∧
    readPathInfo (migrateClientVfs treeSample emptyDB)
        (PathIdentifier.mk PathType.os ["foo"]) 9 =
      some { stat := none, hash := none } :=
  ⟨(claim_C3_ancestor_invariant treeSample).1
      (PathIdentifier.mk PathType.os ["foo", "bar"]) (by decide) 1 (by decide) (by decide),
   (claim_C3_ancestor_invariant treeSample).2
      (PathIdentifier.mk PathType.os ["foo"]) (by decide) (by decide) (by decide) 9⟩

/-- Claim C4: for fixed legacy data, running MigrateClientVfs twice
produces exactly the destination store of running it once — each write
is a keyed upsert, not an append, so no record is duplicated or
altered. -/
theorem claim_C4_vfs_idempotent (src : VfsSource) :
    migrateClientVfs src (migrateClientVfs src emptyDB) = migrateClientVfs src emptyDB := by
  rw [migrateClientVfs_emptyDB]
  unfold migrateClientVfs
  apply foldl_upsert_identical
  · intro e he f hf hfe
    exact congrArg Prod.snd
      (List.inj_on_of_nodup_map (migrateRecords_keys_nodup src) hf he hfe)
  · intro e he
    exact ⟨e, he, rfl⟩

/-- Claim C5: running the Blob Migrator twice over the same legacy
content yields the same destination contents as running it once, and a
write of an already-present content identity is a no-op success, never
an error. -/
theorem claim_C5_blob_idempotent (m : BlobsMigrator) (th : Nat)
    (legacy : LegacyBlobStore) (dest : DestBlobStore) :
    m.execute th legacy (m.execute th legacy dest) = m.execute th legacy dest ∧
    ∀ (d : DestBlobStore) (x : List Nat × List Nat),
      d.any (fun f => f.fst = x.fst) = true → writeBlobIfAbsent d x = d := by
  constructor
  · simp only [execute_eq_foldl]
    apply foldl_writeBlob_of_present
    intro e he
    exact foldl_writeBlob_key_present legacy.blobs dest e he
  · intro d x hx
    unfold writeBlobIfAbsent
    rw [if_pos hx]

theorem claim_C5_witness :
    writeBlobIfAbsent [([1], [7])] ([1], [9]) = [([1], [7])] :=
  (claim_C5_blob_idempotent (BlobsMigrator.mk 1) 1 (LegacyBlobStore.mk []) []).2
    [([1], [7])] ([1], [9]) (by decide)

/-- Claim C6: for any two positive batch sizes the Blob Migrator run to
exhaustion yields identical final destination contents, every blob is
copied byte-exact, and concretely a legacy store with two distinct
1024-byte blobs migrated with batch size 1 ends with both blobs present
byte-exact. -/
theorem claim_C6_batch_size_invariant :
    (∀ (m1 m2 : BlobsMigrator) (th1 th2 : Nat) (legacy : LegacyBlobStore)
        (dest : DestBlobStore),
      0 < m1.blobBatchSize → 0 < m2.blobBatchSize →
      m1.execute th1 legacy dest = m2.execute th2 legacy dest) ∧
    (∀ (m : BlobsMigrator) (th : Nat) (legacy : LegacyBlobStore),
      (legacy.blobs.map Prod.fst).Nodup →
      ∀ e ∈ legacy.blobs, readBlob (m.execute th legacy []) e.fst = some e.snd) ∧
    (readBlob ((BlobsMigrator.mk 1).execute 2 blobSample []) [1]
        = some (List.replicate 1024 65) ∧
     readBlob ((BlobsMigrator.mk 1).execute 2 blobSample []) [2]
        = some (List.replicate 1024 66)) := by
  refine ⟨?_, ?_, ?_, ?_⟩
  · intro m1 m2 th1 th2 legacy dest _ _
    rw [execute_eq_foldl, execute_eq_foldl]
  · intro m th legacy hnd e he
    rw [execute_eq_foldl]
    exact foldl_writeBlob_reads legacy.blobs [] hnd (by intro e2 _; simp) e he
  · rw [execute_eq_foldl]
    exact foldl_writeBlob_reads blobSample.blobs [] (by decide)
      (by intro e2 _; simp) ([1], List.replicate 1024 65)
      (List.mem_cons_self _ _)
  · rw [execute_eq_foldl]
    exact foldl_writeBlob_reads blobSample.blobs [] (by decide)
      (by intro e2 _; simp) ([2], List.replicate 1024 66)
      (List.mem_cons_of_mem _ (List.mem_cons_self _ _))

theorem claim_C6_witness :
    (BlobsMigrator.mk 1).execute 1 (LegacyBlobStore.mk [([3], [9])]) []
        = (BlobsMigrator.mk 2).execute 5 (LegacyBlobStore.mk [([3], [9])]) [] ∧
    readBlob ((BlobsMigrator.mk 1).execute 1 (LegacyBlobStore.mk [([3], [9])]) []) [3]
        = some [9] :=
  ⟨claim_C6_batch_size_invariant.1 (BlobsMigrator.mk 1) (BlobsMigrator.mk 2) 1 5
      (LegacyBlobStore.mk [([3], [9])]) [] (by decide) (by decide),
   claim_C6_batch_size_invariant.2.1 (BlobsMigrator.mk 1) 1
      (LegacyBlobStore.mk [([3], [9])]) (by decide) ([3], [9]) (by decide)⟩

theorem claim_C7_counterexample :
    ¬ (∀ (m : BlobsMigrator) (b : Nat) (legacy : LegacyBlobStore),
        ∀ c ∈ m.executeFetchCounts b legacy, c ≤ b) := by
  intro h
  have h2 := h (BlobsMigrator.mk 2) 1 (LegacyBlobStore.mk [([0], []), ([1], [])]) 2
    (by decide)
  omega

/-- Claim C7 (amended): the per-iteration fetch count of the blob
migrator is bounded by the module-level batch-size constant
`_BLOB_BATCH_SIZE` (here the `blobBatchSize` field, patched by the test
suite), not by the argument of `Execute`, which configures worker
parallelism only. -/
theorem claim_C7_amended (m : BlobsMigrator) (th : Nat) (legacy : LegacyBlobStore)
    (hpos : 1 ≤ m.blobBatchSize) :
    ∀ c ∈ m.executeFetchCounts th legacy, c ≤ m.blobBatchSize := by
  intro c hc
  unfold BlobsMigrator.executeFetchCounts toBatches at hc
  rcases List.mem_map.mp hc with ⟨bt, hbt, rfl⟩
  have hlen := toBatchesFuel_length_le (m.blobBatchSize - 1) legacy.blobs.length
    legacy.blobs bt hbt
  omega

theorem claim_C7_witness :
    3 ∈ (BlobsMigrator.mk 3).executeFetchCounts 2
        (LegacyBlobStore.mk [([0], []), ([1], []), ([2], []), ([3], [])]) ∧
    (3 : Nat) ≤ 3 :=
  ⟨by decide,
   claim_C7_amended (BlobsMigrator.mk 3) 2
     (LegacyBlobStore.mk [([0], []), ([1], []), ([2], []), ([3], [])]) (by decide) 3
     (by decide)⟩

/-- Claim C8: a migrated node with hash history but no status history
answers every valid point-in-time read with an absent status and a
present hash — the two attribute kinds resolve independently. -/
theorem claim_C8_independent_kinds (src : VfsSource) (hw : src.WF) (p : PathIdentifier)
    (hp : p ∈ listVfs src.leaves) (hstat : src.statHistory p = []) (T : Nat)
    (hvalid : ∃ e ∈ src.hashHistory p, e.fst ≤ T) :
    ∃ r : PathRecord, readPathInfo (migrateClientVfs src emptyDB) p T = some r ∧
      r.stat = none ∧ r.hash.isSome = true := by
  refine ⟨_, readPathInfo_migrate src hw p hp T, ?_, ?_⟩
  · show specLatestAtOrBefore (src.statHistory p) T = none
    rw [hstat]
    rfl
  · show (specLatestAtOrBefore (src.hashHistory p) T).isSome = true
    exact specLatest_isSome _ T hvalid

theorem claim_C8_witness :
    ∃ r : PathRecord, readPathInfo (migrateClientVfs hashOnlySample emptyDB)
        (PathIdentifier.mk PathType.os ["bar"]) 6 = some r ∧
      r.stat = none ∧ r.hash.isSome = true :=
  claim_C8_independent_kinds hashOnlySample (by decide)
    (PathIdentifier.mk PathType.os ["bar"]) (by decide) (by decide) 6 (by decide)

/-- Claim C9: the Versioned Attribute Reader skips a malformed history
entry with exactly one recorded warning, leaving the parsed entries
unchanged, and still yields every parseable entry of the history — a
corrupt entry never aborts the rest of the node's history. -/
theorem claim_C9_reader_skips_corrupt (xs ys : List RawEntry) :
    ((readHistory (xs ++ RawEntry.corrupt :: ys)).entries
        = (readHistory (xs ++ ys)).entries ∧
     (readHistory (xs ++ RawEntry.corrupt :: ys)).warnings
        = (readHistory (xs ++ ys)).warnings + 1) ∧
    ∀ t v : Nat, RawEntry.valid t v ∈ xs ++ RawEntry.corrupt :: ys →
      (t, v) ∈ (readHistory (xs ++ RawEntry.corrupt :: ys)).entries :=
  ⟨readHistory_corrupt xs ys,
   fun t v hm => readHistory_complete _ t v hm⟩

theorem claim_C9_witness :
    (readHistory [RawEntry.valid 1 2, RawEntry.corrupt, RawEntry.valid 3 4]).entries
        = (readHistory [RawEntry.valid 1 2, RawEntry.valid 3 4]).entries ∧
    (3, 4) ∈ (readHistory [RawEntry.valid 1 2, RawEntry.corrupt,
        RawEntry.valid 3 4]).entries :=
  ⟨(claim_C9_reader_skips_corrupt [RawEntry.valid 1 2] [RawEntry.valid 3 4]).1.1,
   (claim_C9_reader_skips_corrupt [RawEntry.valid 1 2] [RawEntry.valid 3 4]).2 3 4
     (by decide)⟩

/-- Claim C10: GetInstallDate.Run always sends exactly one reply and
never propagates an exception: it replies with the st_ctime of the
first path among /var/log/CDIS.custom, /var, /private whose stat
succeeds, and replies with 0 when stat raises OSError for all three. -/
theorem claim_C10_install_date (st : String → Option Int) :
    (GetInstallDateRun st).length = 1 ∧
    (∀ t : Int, st "/var/log/CDIS.custom" = some t → GetInstallDateRun st = [t]) ∧
    (∀ t : Int, st "/var/log/CDIS.custom" = none → st "/var" = some t →
      GetInstallDateRun st = [t]) ∧
    (∀ t : Int, st "/var/log/CDIS.custom" = none → st "/var" = none →
      st "/private" = some t → GetInstallDateRun st = [t]) ∧
    (st "/var/log/CDIS.custom" = none → st "/var" = none → st "/private" = none →
      GetInstallDateRun st = [0]) := by
  have he := getInstallDateRun_eq st
  refine ⟨?_, ?_, ?_, ?_, ?_⟩
  · rw [he]
    rfl
  · intro t h1
    rw [he, h1]
    rfl
  · intro t h1 h2
    rw [he, h1, h2]
    rfl
  · intro t h1 h2 h3
    rw [he, h1, h2, h3]
    rfl
  · intro h1 h2 h3
    rw [he, h1, h2, h3]
    rfl

theorem claim_C10_witness :
    (GetInstallDateRun (fun _ => none)).length = 1 ∧
    GetInstallDateRun (fun _ => none) = [0] :=
  ⟨(claim_C10_install_date (fun _ => none)).1,
   (claim_C10_install_date (fun _ => none)).2.2.2.2 rfl rfl rfl⟩
